import Mathlib

/-!
Verification development for the lanMsg LAN-messenger core
(`src/protocol.rs`, `src/net.rs`): a shallow embedding of the packet
codec and the presence-tracking UDP service, with theorems checking the
design document's claims against this embedding.

Strings are modelled as `List Char` (a Rust `&str` is a sequence of
chars), raw byte buffers as `List Nat` (each element < 256).
-/

set_option autoImplicit false

namespace LanMsg

/-! ### Character-level utilities mirroring the Rust standard library -/

/-- The NUL character `'\0'`. -/
def nulChar : Char := Char.ofNat 0

/-- Rust `char::is_whitespace`: the Unicode `White_Space` property,
listed by code point. -/
def rustIsWhitespace (c : Char) : Bool :=
  decide (c.toNat ∈ [9, 10, 11, 12, 13, 32, 0x85, 0xA0, 0x1680,
   0x2000, 0x2001, 0x2002, 0x2003, 0x2004, 0x2005, 0x2006, 0x2007,
   0x2008, 0x2009, 0x200A, 0x2028, 0x2029, 0x202F, 0x205F, 0x3000])

/-- Rust `char::is_ascii_digit` (`'0'..='9'`). -/
def isAsciiDigit (c : Char) : Bool := 48 ≤ c.toNat && c.toNat ≤ 57

/-- Drop from the right end of a list while a predicate holds
(the right-hand half of Rust `str::trim`). -/
def rdropWhileChar (p : Char → Bool) (l : List Char) : List Char :=
  (l.reverse.dropWhile p).reverse

/-- Rust `str::trim`: remove leading and trailing whitespace. -/
def trimChars (l : List Char) : List Char :=
  rdropWhileChar rustIsWhitespace (l.dropWhile rustIsWhitespace)

/-- Prepend a character to the first piece of a split result. -/
def consHead (c : Char) : List (List Char) → List (List Char)
  | [] => [[c]]
  | p :: ps => (c :: p) :: ps

/-- Rust `str::split(sep)` collected into a `Vec`: always yields at least
one (possibly empty) piece; `n` separators yield `n+1` pieces. -/
def splitOnChar (sep : Char) : List Char → List (List Char)
  | [] => [[]]
  | c :: cs =>
    if c = sep then [] :: splitOnChar sep cs
    else consHead c (splitOnChar sep cs)

/-- Strip one leading `'+'` sign if present (the sign handling of Rust
`u32::from_str`). -/
def stripPlus : List Char → List Char
  | [] => []
  | c :: r => if c = '+' then r else c :: r

/-- Decimal value of a digit string. -/
def digitsVal (l : List Char) : Nat :=
  l.foldl (fun a c => 10 * a + (c.toNat - 48)) 0

/-- Rust `str::parse::<u32>()`: optional `'+'`, then one or more ASCII
digits, rejecting values above `u32::MAX`; everything else is an error. -/
def parseU32 (s : List Char) : Option Nat :=
  let ds := stripPlus s
  if ds = [] then none
  else if ds.all isAsciiDigit then
    if digitsVal ds < 2 ^ 32 then some (digitsVal ds) else none
  else none

/-- The decimal digit character for `d < 10`. -/
def digitChar (d : Nat) : Char :=
  (['0', '1', '2', '3', '4', '5', '6', '7', '8', '9'].getD d '0')

/-- Decimal rendering helper with explicit fuel, structurally recursive
so that concrete values evaluate inside the kernel; the fuel strictly
exceeds the value, which shrinks by a factor of 10 each step. -/
def natToCharsAux : Nat → Nat → List Char
  | 0, _ => []
  | fuel + 1, n =>
    if n < 10 then [digitChar n]
    else natToCharsAux fuel (n / 10) ++ [digitChar (n % 10)]

/-- Decimal rendering of a natural number, as Rust `format!("{}", n)`
prints a `u32`. -/
def natToChars (n : Nat) : List Char := natToCharsAux (n + 1) n

/-! ### UTF-8 byte-level model (Rust `String::as_bytes` / strict decode) -/

/-- UTF-8 encoding of a single scalar value. -/
def utf8EncodeChar (c : Char) : List Nat :=
  let n := c.toNat
  if n < 0x80 then [n]
  else if n < 0x800 then [0xC0 + n / 64, 0x80 + n % 64]
  else if n < 0x10000 then
    [0xE0 + n / 4096, 0x80 + n / 64 % 64, 0x80 + n % 64]
  else
    [0xF0 + n / 262144, 0x80 + n / 4096 % 64, 0x80 + n / 64 % 64, 0x80 + n % 64]

/-- UTF-8 bytes of a char sequence (Rust `str::as_bytes`). -/
def utf8Encode (s : List Char) : List Nat :=
  (s.map utf8EncodeChar).flatten

/-- Whether a byte is a UTF-8 continuation byte `0x80..=0xBF`. -/
def isCont (b : Nat) : Bool := 0x80 ≤ b && b < 0xC0

/-- Strict UTF-8 decoding with explicit fuel (the fuel is the buffer
length, consumed at least one byte per step). Rejects truncated
sequences, overlong forms, surrogates and out-of-range values, exactly
the inputs on which `encoding_rs` UTF-8 decoding reports errors. -/
def utf8DecodeFuel : Nat → List Nat → Option (List Char)
  | _, [] => some []
  | 0, _ :: _ => none
  | fuel + 1, b :: bs =>
    if b < 0x80 then
      (utf8DecodeFuel fuel bs).map (fun s => Char.ofNat b :: s)
    else if b < 0xC2 then none
    else if b < 0xE0 then
      match bs with
      | b1 :: r =>
        if isCont b1 then
          (utf8DecodeFuel fuel r).map
            (fun s => Char.ofNat ((b - 0xC0) * 64 + (b1 - 0x80)) :: s)
        else none
      | _ => none
    else if b < 0xF0 then
      match bs with
      | b1 :: b2 :: r =>
        let cp := (b - 0xE0) * 4096 + (b1 - 0x80) * 64 + (b2 - 0x80)
        if isCont b1 && isCont b2 && decide (0x800 ≤ cp)
            && !(decide (0xD800 ≤ cp) && decide (cp < 0xE000)) then
          (utf8DecodeFuel fuel r).map (fun s => Char.ofNat cp :: s)
        else none
      | _ => none
    else if b ≤ 0xF4 then
      match bs with
      | b1 :: b2 :: b3 :: r =>
        let cp := (b - 0xF0) * 262144 + (b1 - 0x80) * 4096
                  + (b2 - 0x80) * 64 + (b3 - 0x80)
        if isCont b1 && isCont b2 && isCont b3
            && decide (0x10000 ≤ cp) && decide (cp < 0x110000) then
          (utf8DecodeFuel fuel r).map (fun s => Char.ofNat cp :: s)
        else none
      | _ => none
    else none

/-- Strict UTF-8 decoding of a byte buffer. -/
def utf8Decode (data : List Nat) : Option (List Char) :=
  utf8DecodeFuel data.length data

/-! ### `src/protocol.rs`: the packet type and codec -/

/-- `IpMsgPacket` (src/protocol.rs). Numeric fields are Rust `u32`,
modelled as `Nat` (the Rust type guarantees values below `2^32`). -/
structure IpMsgPacket where
  version : List Char
  packet_no : Nat
  sender_user : List Char
  sender_host : List Char
  command : Nat
  sender_name : List Char
  group_name : List Char
  additional_msg : List Char
deriving DecidableEq, Repr

namespace commands

/-- `commands::BR_ENTRY` (src/protocol.rs). -/
def BR_ENTRY : Nat := 0x00000001

/-- `commands::BR_EXIT` (src/protocol.rs). -/
def BR_EXIT : Nat := 0x00000002

/-- `commands::IPMSG_ANSENTRY` (src/protocol.rs). -/
def IPMSG_ANSENTRY : Nat := 0x00000003

/-- `commands::IPMSG_BR_ABSENCE` (src/protocol.rs). -/
def IPMSG_BR_ABSENCE : Nat := 0x00000004

/-- `commands::MSG` (src/protocol.rs). -/
def MSG : Nat := 0x00000020

/-- `commands::FILE` (src/protocol.rs). -/
def FILE : Nat := 0x00000060

end commands

namespace IpMsgPacket

/-- `IpMsgPacket::encode` (src/protocol.rs lines 21-31): the plain
protocol string `version:packet_no:sender_name:sender_host:command:additional_msg`. -/
def encode (p : IpMsgPacket) : List Char :=
  p.version ++ ':' :: natToChars p.packet_no ++ ':' :: p.sender_name
    ++ ':' :: p.sender_host ++ ':' :: natToChars p.command
    ++ ':' :: p.additional_msg

/-- The packet string composed by `IpMsgPacket::encode_with_config`
(src/protocol.rs lines 55-79) before byte conversion: the sender-user
slot carries the literal `"aaMsg"`, and the tail is
`sender_name NUL group_name` when `group_name` is non-empty, else
`additional_msg`. -/
def encodeWithConfigStr (p : IpMsgPacket) : List Char :=
  let additional :=
    if p.group_name = [] then p.additional_msg
    else p.sender_name ++ nulChar :: p.group_name
  p.version ++ ':' :: natToChars p.packet_no ++ ':' :: "aaMsg".toList
    ++ ':' :: p.sender_host ++ ':' :: natToChars p.command
    ++ ':' :: additional

/-- Index into the pieces of a split, Rust `iterator.next()` with
`unwrap_or("")` / `unwrap_or_default()`. -/
def pieceD (l : List (List Char)) (i : Nat) : List Char := l.getD i []

/-- `IpMsgPacket::parse_packet_str` (src/protocol.rs lines 122-153):
split on `':'`, require at least 6 parts, parse the numeric fields
(failure aborts), and split part 5 on NUL into sender_name, group_name,
additional_msg. -/
def parse_packet_str (s : List Char) : Option IpMsgPacket :=
  if (splitOnChar ':' s).length < 6 then none
  else
    match parseU32 (pieceD (splitOnChar ':' s) 1),
        parseU32 (pieceD (splitOnChar ':' s) 4) with
    | some no, some cmd =>
      some { version := pieceD (splitOnChar ':' s) 0
             packet_no := no
             sender_user := pieceD (splitOnChar ':' s) 2
             sender_host := pieceD (splitOnChar ':' s) 3
             command := cmd
             sender_name :=
               pieceD (splitOnChar nulChar (pieceD (splitOnChar ':' s) 5)) 0
             group_name :=
               pieceD (splitOnChar nulChar (pieceD (splitOnChar ':' s) 5)) 1
             additional_msg :=
               pieceD (splitOnChar nulChar (pieceD (splitOnChar ':' s) 5)) 2 }
    | _, _ => none

/-- `IpMsgPacket::decode_fallback` (src/protocol.rs lines 102-119):
split on `':'`, require at least 6 parts; numeric parse failures
default to 0 (`unwrap_or(0)`), and sender_name, group_name and
additional_msg are all set to `parts[5].split('\0').next().unwrap_or("")`,
the portion of part 5 before its first NUL. -/
def decode_fallback (s : List Char) : Option IpMsgPacket :=
  if (splitOnChar ':' s).length < 6 then none
  else
    some { version := pieceD (splitOnChar ':' s) 0
           packet_no := (parseU32 (pieceD (splitOnChar ':' s) 1)).getD 0
           sender_user := pieceD (splitOnChar ':' s) 2
           sender_host := pieceD (splitOnChar ':' s) 3
           command := (parseU32 (pieceD (splitOnChar ':' s) 4)).getD 0
           sender_name :=
             pieceD (splitOnChar nulChar (pieceD (splitOnChar ':' s) 5)) 0
           group_name :=
             pieceD (splitOnChar nulChar (pieceD (splitOnChar ':' s) 5)) 0
           additional_msg :=
             pieceD (splitOnChar nulChar (pieceD (splitOnChar ':' s) 5)) 0 }

end IpMsgPacket

/-- The UTF-8 branch of `extract_string_part2` (src/protocol.rs lines
208-221): keep leading bytes that are ASCII graphic or space, stop at
the first NUL or other non-printable byte, then trim. -/
def extractAsciiPrintable : List Nat → List Char
  | [] => []
  | b :: bs =>
    if (0x21 ≤ b && b ≤ 0x7E) || b = 0x20 then
      Char.ofNat b :: extractAsciiPrintable bs
    else []

/-- `extract_string_part2` with a UTF-8 (non-"gbk") configuration. -/
def extract_string_part2_utf8 (data : List Nat) : List Char :=
  trimChars (extractAsciiPrintable data)

/-- The encoding selected by `config.encoding.protocol` together with
the matching branch of `extract_string_part2`: `encode` is
`encoder.encode` (never fails, may substitute replacements), `decode`
is `decoder.decode` returning the text and the `had_errors` flag, and
`extract` is the printable-prefix recovery used on `had_errors`.
The concrete UTF-8 instance is `utf8Wire` below; GBK is a further
instance of the same interface. -/
structure WireEncoding where
  encode : List Char → List Nat
  decode : List Nat → List Char × Bool
  extract : List Nat → List Char

/-- The UTF-8 configuration (`config.encoding.protocol ≠ "gbk"`):
encoding is `str::as_bytes` on the composed string; decoding reports
`had_errors` exactly on invalid UTF-8 (the replacement text produced in
that case is never consumed by `decode_with_config`, which switches to
`extract`). -/
def utf8Wire : WireEncoding where
  encode := utf8Encode
  decode := fun data =>
    match utf8Decode data with
    | some s => (s, false)
    | none => ([], true)
  extract := extract_string_part2_utf8

namespace IpMsgPacket

/-- `IpMsgPacket::encode_with_config` (src/protocol.rs lines 55-80):
the composed packet string converted to bytes by the configured
encoding. -/
def encode_with_config (E : WireEncoding) (p : IpMsgPacket) : List Nat :=
  E.encode (encodeWithConfigStr p)

/-- `IpMsgPacket::decode_with_config` (src/protocol.rs lines 83-99):
decode the whole buffer with the configured encoding; on `had_errors`
fall back to parsing the extracted printable part, otherwise trim and
parse the decoded string. -/
def decode_with_config (E : WireEncoding) (data : List Nat) : Option IpMsgPacket :=
  let (s, had_errors) := E.decode data
  if had_errors then decode_fallback (E.extract data)
  else parse_packet_str (trimChars s)

end IpMsgPacket

/-! ### `src/net.rs`: the presence service -/

/-- `IPMSG_PORT` (src/net.rs line 11). -/
def IPMSG_PORT : Nat := 2425

/-- The user directory `HashMap<String, SocketAddr>`, modelled as an
association list over an abstract address type `α`; `HashMap` key
uniqueness is the `Nodup` invariant proved below. -/
def Dir (α : Type) : Type := List (List Char × α)

/-- The key set of a directory. -/
def dirKeys {α : Type} (d : Dir α) : List (List Char) := d.map Prod.fst

/-- All entries stored under key `k`. -/
def entriesFor {α : Type} (k : List Char) (d : Dir α) : Dir α :=
  d.filter (fun e => e.1 = k)

/-- `HashMap::remove`: drop every entry with the given key. -/
def dirRemove {α : Type} (d : Dir α) (k : List Char) : Dir α :=
  d.filter (fun e => ¬ e.1 = k)

/-- `HashMap::insert`: the new binding replaces any existing binding of
the same key. -/
def dirInsert {α : Type} (d : Dir α) (k : List Char) (v : α) : Dir α :=
  (k, v) :: dirRemove d k

/-- The directory key built by `handle_packet` (src/net.rs line 168):
`format!("{}@{}", packet.sender_name, packet.sender_host)`. -/
def dirKey (p : IpMsgPacket) : List Char :=
  p.sender_name ++ '@' :: p.sender_host

/-- `IpMsgServer::handle_packet` (src/net.rs lines 166-182): match on
`packet.command & 0xff`; entry-class commands insert, `BR_EXIT`
removes, anything else leaves the directory alone. -/
def handle_packet {α : Type} (d : Dir α) (p : IpMsgPacket) (addr : α) : Dir α :=
  let username := dirKey p
  let command := p.command &&& 0xff
  if command = commands.BR_ENTRY then dirInsert d username addr
  else if command = commands.IPMSG_ANSENTRY then dirInsert d username addr
  else if command = commands.BR_EXIT then dirRemove d username
  else d

/-- The directory effect of one received datagram (src/net.rs lines
95-115): on decode success run `handle_packet`; on decode failure only
log, leaving the directory unchanged. -/
def processDatagram {α : Type} (E : WireEncoding) (d : Dir α)
    (data : List Nat) (addr : α) : Dir α :=
  match IpMsgPacket.decode_with_config E data with
  | some p => handle_packet d p addr
  | none => d

/-- One external event seen by the receive loop: a datagram delivered
by `recv_from`, or an OS receive error. -/
inductive NetEvent (α : Type) where
  | recv (data : List Nat) (addr : α)
  | err
deriving DecidableEq

/-- `MAX_CONSECUTIVE_ERRORS` (src/net.rs line 72). -/
def MAX_CONSECUTIVE_ERRORS : Nat := 5

/-- One iteration of `IpMsgServer::listen` (src/net.rs lines 74-134),
acting on the state (consecutive-error counter, directory). A received
datagram is read into the fixed `[0; 1024]` buffer, so at most its
first 1024 bytes reach the decoder; receive success resets the counter
to 0. A receive error increments the counter and the loop returns a
fatal error (`none`) once it reaches `MAX_CONSECUTIVE_ERRORS`. -/
def listenStep {α : Type} (E : WireEncoding) (st : Nat × Dir α) :
    NetEvent α → Option (Nat × Dir α)
  | .recv data addr =>
    some (0, processDatagram E st.2 (data.take 1024) addr)
  | .err =>
    if MAX_CONSECUTIVE_ERRORS ≤ st.1 + 1 then none
    else some (st.1 + 1, st.2)

/-- The receive loop run over a finite prefix of its event stream:
`none` means it terminated with the fatal too-many-errors error, `some`
is the live state after consuming the events. -/
def runListen {α : Type} (E : WireEncoding) (st : Nat × Dir α) :
    List (NetEvent α) → Option (Nat × Dir α)
  | [] => some st
  | e :: evs =>
    match listenStep E st e with
    | some st' => runListen E st' evs
    | none => none

/-- The destination string of `IpMsgServer::broadcast` (src/net.rs
lines 49-57): `format!("255.255.255.255:{}", IPMSG_PORT)`. -/
def broadcastDest : List Char :=
  "255.255.255.255:".toList ++ natToChars IPMSG_PORT

/-- The datagram transmitted by `IpMsgServer::broadcast`: the bytes
`packet.encode().as_bytes()` (UTF-8 bytes of the plain `encode` string)
sent to the hardcoded broadcast destination. -/
def broadcastDatagram (p : IpMsgPacket) : List Nat × List Char :=
  (utf8Encode p.encode, broadcastDest)

/-- The datagram transmitted by `IpMsgServer::send_to` (src/net.rs
lines 59-64): the same `packet.encode().as_bytes()` payload, sent to
the given address. -/
def sendToDatagram {α : Type} (p : IpMsgPacket) (addr : α) : List Nat × α :=
  (utf8Encode p.encode, addr)

/-! ### Concrete example values used in witnesses and counterexamples -/

/-- A clean `MSG` packet with an empty group and a non-empty body. -/
def examplePacket : IpMsgPacket :=
  { version := "lanMsg 0.1".toList
    packet_no := 100
    sender_user := "default_user".toList
    sender_host := "PC-1".toList
    command := 0x20
    sender_name := "Alice".toList
    group_name := []
    additional_msg := "Hello".toList }

/-- A string with six colon-separated parts whose tail carries three
NUL-separated pieces. -/
def fallbackTailInput : List Char :=
  "a:1:u:h:2:x".toList ++ nulChar :: ("y".toList ++ nulChar :: "z".toList)

/-- A string with six colon-separated parts whose numeric fields do not
parse as `u32`. -/
def badNumbersInput : List Char := "v:xx:u:h:yy:tail".toList

/-! ### Helper lemmas: `splitOnChar` -/

theorem splitOnChar_ne_nil (sep : Char) (s : List Char) :
    splitOnChar sep s ≠ [] := by
  cases s with
  | nil => simp [splitOnChar]
  | cons c cs =>
    simp only [splitOnChar]
    split
    · simp
    · cases splitOnChar sep cs <;> simp [consHead]

theorem splitOnChar_no_sep {sep : Char} {s : List Char} (h : sep ∉ s) :
    splitOnChar sep s = [s] := by
  induction s with
  | nil => rfl
  | cons c cs ih =>
    simp only [List.mem_cons, not_or] at h
    simp only [splitOnChar]
    rw [if_neg (fun hc => h.1 hc.symm), ih h.2]
    rfl

theorem splitOnChar_append (sep : Char) (a b : List Char) :
    splitOnChar sep (a ++ sep :: b) = splitOnChar sep a ++ splitOnChar sep b := by
  induction a with
  | nil => simp [splitOnChar]
  | cons c cs ih =>
    by_cases hc : c = sep
    · subst hc
      simp [splitOnChar, ih]
    · simp only [List.cons_append, splitOnChar, if_neg hc, List.append_eq]
      cases hsp : splitOnChar sep cs with
      | nil => exact absurd hsp (splitOnChar_ne_nil sep cs)
      | cons p ps => rw [ih, hsp]; simp [consHead]

theorem splitOnChar_cons_of_no_sep {sep : Char} {a : List Char}
    (h : sep ∉ a) (b : List Char) :
    splitOnChar sep (a ++ sep :: b) = a :: splitOnChar sep b := by
  rw [splitOnChar_append, splitOnChar_no_sep h]
  rfl

theorem sep_not_mem_of_mem_splitOnChar {sep : Char} {s l : List Char}
    (h : l ∈ splitOnChar sep s) : sep ∉ l := by
  induction s generalizing l with
  | nil =>
    simp only [splitOnChar, List.mem_singleton] at h
    subst h; simp
  | cons c cs ih =>
    by_cases hc : c = sep
    · subst hc
      simp only [splitOnChar, if_pos rfl] at h
      rcases List.mem_cons.1 h with h | h
      · subst h; simp
      · exact ih h
    · simp only [splitOnChar, if_neg hc] at h
      cases hsp : splitOnChar sep cs with
      | nil => exact absurd hsp (splitOnChar_ne_nil sep cs)
      | cons p ps =>
        rw [hsp] at h
        simp only [consHead, List.mem_cons] at h
        rcases h with h | h
        · subst h
          intro hmem
          rcases List.mem_cons.1 hmem with h' | h'
          · exact hc h'.symm
          · exact ih (hsp ▸ List.mem_cons_self p ps) h'
        · exact ih (hsp ▸ List.mem_cons_of_mem p h)

theorem mem_of_mem_splitOnChar {sep c : Char} {s l : List Char}
    (hl : l ∈ splitOnChar sep s) (hc : c ∈ l) : c ∈ s := by
  induction s generalizing l with
  | nil =>
    simp only [splitOnChar, List.mem_singleton] at hl
    subst hl; exact absurd hc (List.not_mem_nil c)
  | cons a cs ih =>
    by_cases ha : a = sep
    · subst ha
      simp only [splitOnChar, if_pos rfl] at hl
      rcases List.mem_cons.1 hl with h | h
      · subst h; exact absurd hc (List.not_mem_nil c)
      · exact List.mem_cons_of_mem a (ih h hc)
    · simp only [splitOnChar, if_neg ha] at hl
      cases hsp : splitOnChar sep cs with
      | nil => exact absurd hsp (splitOnChar_ne_nil sep cs)
      | cons p ps =>
        rw [hsp] at hl
        simp only [consHead, List.mem_cons] at hl
        rcases hl with h | h
        · subst h
          rcases List.mem_cons.1 hc with h' | h'
          · subst h'; exact List.mem_cons_self c cs
          · exact List.mem_cons_of_mem a (ih (hsp ▸ List.mem_cons_self p ps) h')
        · exact List.mem_cons_of_mem a (ih (hsp ▸ List.mem_cons_of_mem p h) hc)

/-! ### Helper lemmas: trimming -/

theorem dropWhile_append_cons {p : Char → Bool} {c : Char}
    (hc : p c = false) (a b : List Char) :
    List.dropWhile p (a ++ c :: b) = List.dropWhile p a ++ c :: b := by
  induction a with
  | nil => simp [List.dropWhile, hc]
  | cons x xs ih =>
    by_cases hx : p x
    · simp [List.dropWhile, hx, ih]
    · simp [List.dropWhile, hx]

theorem rdropWhileChar_append_cons {p : Char → Bool} {c : Char}
    (hc : p c = false) (a b : List Char) :
    rdropWhileChar p (a ++ c :: b) = a ++ c :: rdropWhileChar p b := by
  unfold rdropWhileChar
  rw [show a ++ c :: b = (a ++ [c]) ++ b by simp,
    List.reverse_append, List.reverse_append]
  simp only [List.reverse_cons, List.reverse_nil, List.nil_append,
    List.singleton_append]
  rw [show List.reverse b ++ c :: List.reverse a
      = List.reverse b ++ c :: List.reverse a from rfl,
    dropWhile_append_cons hc]
  simp

theorem mem_of_mem_dropWhile {p : Char → Bool} {c : Char} {l : List Char}
    (h : c ∈ List.dropWhile p l) : c ∈ l :=
  (List.dropWhile_sublist p).subset h

theorem mem_of_mem_rdropWhileChar {p : Char → Bool} {c : Char} {l : List Char}
    (h : c ∈ rdropWhileChar p l) : c ∈ l := by
  unfold rdropWhileChar at h
  rw [List.mem_reverse] at h
  exact List.mem_reverse.1 (mem_of_mem_dropWhile h)

theorem trimChars_of_shape {v m a : List Char}
    (hm1 : rustIsWhitespace ':' = false) :
    trimChars (v ++ ':' :: m ++ ':' :: a)
      = List.dropWhile rustIsWhitespace v ++ ':' :: m
        ++ ':' :: rdropWhileChar rustIsWhitespace a := by
  unfold trimChars
  rw [dropWhile_append_cons hm1, rdropWhileChar_append_cons hm1,
    dropWhile_append_cons hm1]

/-! ### Helper lemmas: decimal printing and `parseU32` -/

theorem natToCharsAux_congr : ∀ (f₁ f₂ n : Nat), n < f₁ → n < f₂ →
    natToCharsAux f₁ n = natToCharsAux f₂ n := by
  intro f₁
  induction f₁ with
  | zero => intro f₂ n h _; omega
  | succ f₁ ih =>
    intro f₂ n h1 h2
    cases f₂ with
    | zero => omega
    | succ f₂ =>
      show (if n < 10 then [digitChar n]
          else natToCharsAux f₁ (n / 10) ++ [digitChar (n % 10)])
        = (if n < 10 then [digitChar n]
          else natToCharsAux f₂ (n / 10) ++ [digitChar (n % 10)])
      by_cases hn : n < 10
      · rw [if_pos hn, if_pos hn]
      · rw [if_neg hn, if_neg hn, ih f₂ (n / 10) (by omega) (by omega)]

theorem natToChars_eq (n : Nat) :
    natToChars n = if n < 10 then [digitChar n]
      else natToChars (n / 10) ++ [digitChar (n % 10)] := by
  show (if n < 10 then [digitChar n]
      else natToCharsAux n (n / 10) ++ [digitChar (n % 10)]) = _
  by_cases hn : n < 10
  · rw [if_pos hn, if_pos hn]
  · rw [if_neg hn, if_neg hn,
      natToCharsAux_congr n (n / 10 + 1) (n / 10) (by omega) (by omega)]
    rfl

theorem isAsciiDigit_digitChar {d : Nat} (hd : d < 10) :
    isAsciiDigit (digitChar d) = true := by
  interval_cases d <;> rfl

theorem digitVal_digitChar {d : Nat} (hd : d < 10) :
    (digitChar d).toNat - 48 = d := by
  interval_cases d <;> rfl

theorem natToChars_ne_nil (n : Nat) : natToChars n ≠ [] := by
  rw [natToChars_eq]
  split <;> simp

theorem mem_natToChars_isAsciiDigit {n : Nat} {c : Char}
    (h : c ∈ natToChars n) : isAsciiDigit c = true := by
  induction n using Nat.strong_induction_on with
  | _ n ih =>
    rw [natToChars_eq] at h
    split at h
    · rcases List.mem_singleton.1 h with rfl
      exact isAsciiDigit_digitChar (by omega)
    · rcases List.mem_append.1 h with h | h
      · exact ih (n / 10) (Nat.div_lt_self (by omega) (by omega)) h
      · rcases List.mem_singleton.1 h with rfl
        exact isAsciiDigit_digitChar (Nat.mod_lt n (by omega))

theorem digitsVal_append_digit (a : List Char) (c : Char) :
    digitsVal (a ++ [c]) = 10 * digitsVal a + (c.toNat - 48) := by
  unfold digitsVal
  rw [List.foldl_append]
  rfl

theorem digitsVal_natToChars (n : Nat) : digitsVal (natToChars n) = n := by
  induction n using Nat.strong_induction_on with
  | _ n ih =>
    rw [natToChars_eq]
    split
    · rename_i h
      show digitsVal [digitChar n] = n
      unfold digitsVal
      simp [digitVal_digitChar h]
    · rename_i h
      rw [digitsVal_append_digit,
        ih (n / 10) (Nat.div_lt_self (by omega) (by omega)),
        digitVal_digitChar (Nat.mod_lt n (by omega))]
      omega

theorem isAsciiDigit_facts {c : Char} (h : isAsciiDigit c = true) :
    c ≠ ':' ∧ c ≠ nulChar ∧ c ≠ '+' ∧ rustIsWhitespace c = false := by
  have hb : 48 ≤ c.toNat ∧ c.toNat ≤ 57 := by
    unfold isAsciiDigit at h
    simp only [Bool.and_eq_true, decide_eq_true_eq] at h
    exact h
  refine ⟨?_, ?_, ?_, ?_⟩
  · intro hc; subst hc; revert hb; decide
  · intro hc; subst hc; revert hb; decide
  · intro hc; subst hc; revert hb; decide
  · obtain ⟨h1, h2⟩ := hb
    unfold rustIsWhitespace
    simp only [decide_eq_false_iff_not, List.mem_cons, List.mem_singleton,
      not_or, List.not_mem_nil, not_false_eq_true, and_true]
    omega

theorem stripPlus_of_digits {l : List Char}
    (hl : l ≠ []) (h : ∀ c ∈ l, isAsciiDigit c = true) :
    stripPlus l = l := by
  cases l with
  | nil => exact absurd rfl hl
  | cons c cs =>
    show (if c = '+' then cs else c :: cs) = c :: cs
    rw [if_neg]
    exact (isAsciiDigit_facts (h c (List.mem_cons_self c cs))).2.2.1

theorem parseU32_natToChars {n : Nat} (hn : n < 2 ^ 32) :
    parseU32 (natToChars n) = some n := by
  unfold parseU32
  rw [stripPlus_of_digits (natToChars_ne_nil n)
    (fun c hc => mem_natToChars_isAsciiDigit hc)]
  rw [if_neg (natToChars_ne_nil n)]
  rw [if_pos (List.all_eq_true.2 (fun c hc => mem_natToChars_isAsciiDigit hc))]
  rw [digitsVal_natToChars]
  exact if_pos hn

/-! ### Helper lemmas: the directory -/

theorem entriesFor_dirRemove_self {α : Type} (d : Dir α) (k : List Char) :
    entriesFor k (dirRemove d k) = [] := by
  induction d with
  | nil => rfl
  | cons e es ih =>
    unfold entriesFor dirRemove at *
    by_cases he : e.1 = k
    · simp [List.filter_cons, he, ih]
    · simp [List.filter_cons, he, ih]

theorem entriesFor_dirInsert_self {α : Type} (d : Dir α) (k : List Char) (v : α) :
    entriesFor k (dirInsert d k v) = [(k, v)] := by
  unfold dirInsert
  show List.filter _ ((k, v) :: dirRemove d k) = [(k, v)]
  rw [List.filter_cons]
  have := entriesFor_dirRemove_self d k
  unfold entriesFor at this
  simp [this]

theorem dirRemove_of_not_mem {α : Type} {d : Dir α} {k : List Char}
    (h : k ∉ dirKeys d) : dirRemove d k = d := by
  induction d with
  | nil => rfl
  | cons e es ih =>
    unfold dirKeys at h
    simp only [List.map_cons, List.mem_cons, not_or] at h
    unfold dirRemove at *
    rw [List.filter_cons, if_pos (by simpa using fun he => h.1 he.symm)]
    rw [ih (by unfold dirKeys; exact h.2)]

theorem dirKeys_dirRemove_sublist {α : Type} (d : Dir α) (k : List Char) :
    (dirKeys (dirRemove d k)).Sublist (dirKeys d) :=
  (List.filter_sublist d).map Prod.fst

theorem not_mem_dirKeys_dirRemove {α : Type} (d : Dir α) (k : List Char) :
    k ∉ dirKeys (dirRemove d k) := by
  unfold dirKeys dirRemove
  intro h
  rcases List.mem_map.1 h with ⟨e, he, hek⟩
  have := List.of_mem_filter he
  simp only [decide_eq_true_eq] at this
  exact this hek

theorem dirKeys_dirInsert_nodup {α : Type} {d : Dir α} (k : List Char) (v : α)
    (h : (dirKeys d).Nodup) : (dirKeys (dirInsert d k v)).Nodup := by
  unfold dirInsert
  show ((k, v) :: dirRemove d k).map Prod.fst |>.Nodup
  rw [List.map_cons]
  exact List.nodup_cons.2
    ⟨not_mem_dirKeys_dirRemove d k, (dirKeys_dirRemove_sublist d k).nodup h⟩

/-- Evaluation of `handle_packet` on a `BR_ENTRY`-class command. -/
theorem handle_packet_br_entry {α : Type} (d : Dir α) {p : IpMsgPacket} (a : α)
    (h : p.command &&& 0xff = commands.BR_ENTRY) :
    handle_packet d p a = dirInsert d (dirKey p) a := by
  unfold handle_packet
  rw [h]
  rfl

/-- Evaluation of `handle_packet` on an `IPMSG_ANSENTRY`-class command. -/
theorem handle_packet_ansentry {α : Type} (d : Dir α) {p : IpMsgPacket} (a : α)
    (h : p.command &&& 0xff = commands.IPMSG_ANSENTRY) :
    handle_packet d p a = dirInsert d (dirKey p) a := by
  unfold handle_packet
  rw [h]
  rfl

/-- Evaluation of `handle_packet` on a `BR_EXIT`-class command. -/
theorem handle_packet_br_exit {α : Type} (d : Dir α) {p : IpMsgPacket} (a : α)
    (h : p.command &&& 0xff = commands.BR_EXIT) :
    handle_packet d p a = dirRemove d (dirKey p) := by
  unfold handle_packet
  rw [h]
  rfl

/-- Evaluation of `handle_packet` on any non-presence command class. -/
theorem handle_packet_other {α : Type} (d : Dir α) {p : IpMsgPacket} (a : α)
    (h1 : p.command &&& 0xff ≠ commands.BR_ENTRY)
    (h2 : p.command &&& 0xff ≠ commands.IPMSG_ANSENTRY)
    (h3 : p.command &&& 0xff ≠ commands.BR_EXIT) :
    handle_packet d p a = d := by
  unfold handle_packet
  rw [if_neg h1, if_neg h2, if_neg h3]

/-! ### Helper lemmas: the receive loop -/

theorem listenStep_recv {α : Type} (E : WireEncoding) (st : Nat × Dir α)
    (data : List Nat) (addr : α) :
    listenStep E st (NetEvent.recv data addr)
      = some (0, processDatagram E st.2 (data.take 1024) addr) := rfl

theorem listenStep_err_fatal {α : Type} (E : WireEncoding) {c : Nat} (d : Dir α)
    (h : MAX_CONSECUTIVE_ERRORS ≤ c + 1) :
    listenStep E (c, d) NetEvent.err = none := by
  unfold listenStep
  rw [if_pos h]

theorem listenStep_err_cont {α : Type} (E : WireEncoding) {c : Nat} (d : Dir α)
    (h : ¬ MAX_CONSECUTIVE_ERRORS ≤ c + 1) :
    listenStep E (c, d) NetEvent.err = some (c + 1, d) := by
  unfold listenStep
  rw [if_neg h]

theorem runListen_cons_some {α : Type} {E : WireEncoding} {st st' : Nat × Dir α}
    {e : NetEvent α} (evs : List (NetEvent α)) (h : listenStep E st e = some st') :
    runListen E st (e :: evs) = runListen E st' evs := by
  show (match listenStep E st e with
    | some st' => runListen E st' evs
    | none => none) = runListen E st' evs
  rw [h]

theorem runListen_cons_none {α : Type} {E : WireEncoding} {st : Nat × Dir α}
    {e : NetEvent α} (evs : List (NetEvent α)) (h : listenStep E st e = none) :
    runListen E st (e :: evs) = none := by
  show (match listenStep E st e with
    | some st' => runListen E st' evs
    | none => none) = none
  rw [h]

theorem runListen_err_run {α : Type} (E : WireEncoding) :
    ∀ (k c : Nat) (d : Dir α) (rest : List (NetEvent α)),
      1 ≤ k → MAX_CONSECUTIVE_ERRORS ≤ c + k →
      runListen E (c, d) (List.replicate k NetEvent.err ++ rest) = none := by
  intro k
  induction k with
  | zero => intro c d rest hk; omega
  | succ k ih =>
    intro c d rest hk h5
    rw [List.replicate_succ, List.cons_append]
    by_cases h1 : MAX_CONSECUTIVE_ERRORS ≤ c + 1
    · exact runListen_cons_none _ (listenStep_err_fatal E d h1)
    · rw [runListen_cons_some _ (listenStep_err_cont E d h1)]
      cases Nat.eq_zero_or_pos k with
      | inl hk0 =>
        subst hk0
        exact absurd h5 (by simpa using h1)
      | inr hpos => exact ih (c + 1) d rest hpos (by omega)

theorem runListen_fatal_has_err_run {α : Type} (E : WireEncoding) :
    ∀ (evs : List (NetEvent α)) (c : Nat) (d : Dir α),
      runListen E (c, d) evs = none →
      (∃ b, evs = List.replicate (MAX_CONSECUTIVE_ERRORS - c) NetEvent.err ++ b)
      ∨ ∃ a b, evs = a ++ List.replicate MAX_CONSECUTIVE_ERRORS NetEvent.err ++ b := by
  intro evs
  induction evs with
  | nil =>
    intro c d h
    exact absurd h (by unfold runListen; simp)
  | cons e evs ih =>
    intro c d h
    cases e with
    | recv data addr =>
      rw [runListen_cons_some _ (listenStep_recv E (c, d) data addr)] at h
      rcases ih 0 _ h with ⟨b, hb⟩ | ⟨a, b, hab⟩
      · right
        exact ⟨[NetEvent.recv data addr], b, by rw [hb]; rfl⟩
      · right
        exact ⟨NetEvent.recv data addr :: a, b, by rw [hab]; rfl⟩
    | err =>
      by_cases h1 : MAX_CONSECUTIVE_ERRORS ≤ c + 1
      · left
        have hc : MAX_CONSECUTIVE_ERRORS - c = 0 ∨ MAX_CONSECUTIVE_ERRORS - c = 1 := by
          unfold MAX_CONSECUTIVE_ERRORS at *
          omega
        rcases hc with hc | hc
        · exact ⟨NetEvent.err :: evs, by rw [hc]; rfl⟩
        · exact ⟨evs, by rw [hc]; rfl⟩
      · rw [runListen_cons_some _ (listenStep_err_cont E d h1)] at h
        rcases ih (c + 1) d h with ⟨b, hb⟩ | ⟨a, b, hab⟩
        · left
          refine ⟨b, ?_⟩
          rw [hb, show MAX_CONSECUTIVE_ERRORS - c = (MAX_CONSECUTIVE_ERRORS - (c + 1)) + 1 from by
            unfold MAX_CONSECUTIVE_ERRORS at *; omega]
          rw [List.replicate_succ, List.cons_append]
        · right
          exact ⟨NetEvent.err :: a, b, by rw [hab]; rfl⟩

/-! ### Claim theorems: the presence directory -/

/-- C5: for every directory state and key, applying the directory
update for a `BR_ENTRY`-class packet with that key twice (possibly from
different sender addresses) leaves exactly one entry for the key, bound
to the most recently applied packet's sender address; and the directory
(with `Nodup` keys, the `HashMap` representation invariant) never holds
more than one address per key across any update. -/
theorem directory_brentry_idempotent {α : Type} :
    (∀ (d : Dir α) (p₁ p₂ : IpMsgPacket) (a₁ a₂ : α),
      p₁.command &&& 0xff = commands.BR_ENTRY →
      p₂.command &&& 0xff = commands.BR_ENTRY →
      dirKey p₁ = dirKey p₂ →
      entriesFor (dirKey p₂) (handle_packet (handle_packet d p₁ a₁) p₂ a₂)
        = [(dirKey p₂, a₂)])
    ∧ (∀ (d : Dir α) (p : IpMsgPacket) (a : α),
      (dirKeys d).Nodup → (dirKeys (handle_packet d p a)).Nodup) := by
  constructor
  · intro d p₁ p₂ a₁ a₂ h₁ h₂ _
    rw [handle_packet_br_entry d a₁ h₁, handle_packet_br_entry _ a₂ h₂,
      entriesFor_dirInsert_self]
  · intro d p a h
    by_cases h₁ : p.command &&& 0xff = commands.BR_ENTRY
    · rw [handle_packet_br_entry d a h₁]
      exact dirKeys_dirInsert_nodup _ _ h
    · by_cases h₂ : p.command &&& 0xff = commands.IPMSG_ANSENTRY
      · rw [handle_packet_ansentry d a h₂]
        exact dirKeys_dirInsert_nodup _ _ h
      · by_cases h₃ : p.command &&& 0xff = commands.BR_EXIT
        · rw [handle_packet_br_exit d a h₃]
          exact (dirKeys_dirRemove_sublist d (dirKey p)).nodup h
        · rw [handle_packet_other d a h₁ h₂ h₃]
          exact h

/-- C5 witness: two `BR_ENTRY` updates for the key `a@h` from addresses
1 and 2 leave exactly the single entry `(a@h, 2)`, on a directory that
already held another peer. -/
theorem directory_brentry_idempotent_witness :
    entriesFor ("a@h".toList)
      (handle_packet
        (handle_packet ([("bob@k".toList, (9 : Nat))])
          { version := "1".toList, packet_no := 1, sender_user := "u".toList,
            sender_host := "h".toList, command := 1, sender_name := "a".toList,
            group_name := [], additional_msg := [] } 1)
        { version := "1".toList, packet_no := 2, sender_user := "u".toList,
          sender_host := "h".toList, command := 0x101, sender_name := "a".toList,
          group_name := [], additional_msg := [] } 2)
      = [("a@h".toList, 2)] := by
  have h := (directory_brentry_idempotent (α := Nat)).1
    [("bob@k".toList, (9 : Nat))]
    { version := "1".toList, packet_no := 1, sender_user := "u".toList,
      sender_host := "h".toList, command := 1, sender_name := "a".toList,
      group_name := [], additional_msg := [] }
    { version := "1".toList, packet_no := 2, sender_user := "u".toList,
      sender_host := "h".toList, command := 0x101, sender_name := "a".toList,
      group_name := [], additional_msg := [] }
    1 2 (by decide) (by decide) rfl
  exact h

/-- C6: a `BR_ENTRY`-class update for a key followed by a
`BR_EXIT`-class update for the same key leaves the directory without
that key, and a `BR_EXIT`-class update for an absent key leaves the
directory unchanged (and, being a total function, raises no error). -/
theorem directory_exit_removes {α : Type} :
    (∀ (d : Dir α) (p₁ p₂ : IpMsgPacket) (a₁ a₂ : α),
      p₁.command &&& 0xff = commands.BR_ENTRY →
      p₂.command &&& 0xff = commands.BR_EXIT →
      dirKey p₁ = dirKey p₂ →
      entriesFor (dirKey p₂) (handle_packet (handle_packet d p₁ a₁) p₂ a₂) = []
      ∧ dirKey p₂ ∉ dirKeys (handle_packet (handle_packet d p₁ a₁) p₂ a₂))
    ∧ (∀ (d : Dir α) (p : IpMsgPacket) (a : α),
      p.command &&& 0xff = commands.BR_EXIT →
      dirKey p ∉ dirKeys d →
      handle_packet d p a = d) := by
  constructor
  · intro d p₁ p₂ a₁ a₂ h₁ h₂ _
    rw [handle_packet_br_entry d a₁ h₁, handle_packet_br_exit _ a₂ h₂]
    exact ⟨entriesFor_dirRemove_self _ _, not_mem_dirKeys_dirRemove _ _⟩
  · intro d p a h hk
    rw [handle_packet_br_exit d a h]
    exact dirRemove_of_not_mem hk

/-- C6 witness: a concrete entry-then-exit pair for the key `a@h`
leaves no entry for it, and a `BR_EXIT` for a key absent from a
concrete directory is a no-op. -/
theorem directory_exit_removes_witness :
    (entriesFor ("a@h".toList)
      (handle_packet
        (handle_packet ([("bob@k".toList, (9 : Nat))])
          { version := "1".toList, packet_no := 1, sender_user := "u".toList,
            sender_host := "h".toList, command := 1, sender_name := "a".toList,
            group_name := [], additional_msg := [] } 1)
        { version := "1".toList, packet_no := 2, sender_user := "u".toList,
          sender_host := "h".toList, command := 2, sender_name := "a".toList,
          group_name := [], additional_msg := [] } 2) = [])
    ∧ handle_packet ([("bob@k".toList, (9 : Nat))])
        { version := "1".toList, packet_no := 3, sender_user := "u".toList,
          sender_host := "h".toList, command := 2, sender_name := "a".toList,
          group_name := [], additional_msg := [] } 3
        = [("bob@k".toList, (9 : Nat))] := by
  constructor
  · exact ((directory_exit_removes (α := Nat)).1
      [("bob@k".toList, (9 : Nat))]
      { version := "1".toList, packet_no := 1, sender_user := "u".toList,
        sender_host := "h".toList, command := 1, sender_name := "a".toList,
        group_name := [], additional_msg := [] }
      { version := "1".toList, packet_no := 2, sender_user := "u".toList,
        sender_host := "h".toList, command := 2, sender_name := "a".toList,
        group_name := [], additional_msg := [] }
      1 2 (by decide) (by decide) rfl).1
  · exact (directory_exit_removes (α := Nat)).2
      [("bob@k".toList, (9 : Nat))]
      { version := "1".toList, packet_no := 3, sender_user := "u".toList,
        sender_host := "h".toList, command := 2, sender_name := "a".toList,
        group_name := [], additional_msg := [] }
      3 (by decide) (by decide)

/-! ### Claim theorems: the receive loop -/

/-- C7: a run of 4 consecutive receive errors followed by a successful
receive resets the counter and the loop continues; any 5 consecutive
receive errors terminate the loop with the fatal error; and from a
fresh counter the loop terminates only if its event stream contains 5
consecutive receive errors. -/
theorem listen_error_threshold {α : Type} (E : WireEncoding) :
    (∀ (d : Dir α) (data : List Nat) (addr : α) (rest : List (NetEvent α)),
      runListen E (0, d)
          (List.replicate 4 NetEvent.err ++ NetEvent.recv data addr :: rest)
        = runListen E (0, processDatagram E d (data.take 1024) addr) rest)
    ∧ (∀ (c : Nat) (d : Dir α) (rest : List (NetEvent α)),
      runListen E (c, d) (List.replicate 5 NetEvent.err ++ rest) = none)
    ∧ (∀ (evs : List (NetEvent α)) (d : Dir α),
      runListen E (0, d) evs = none →
      ∃ a b, evs = a ++ List.replicate 5 NetEvent.err ++ b) := by
  refine ⟨?_, ?_, ?_⟩
  · intro d data addr rest
    rfl
  · intro c d rest
    exact runListen_err_run E 5 c d rest (by omega) (by unfold MAX_CONSECUTIVE_ERRORS; omega)
  · intro evs d h
    rcases runListen_fatal_has_err_run E evs 0 d h with ⟨b, hb⟩ | ⟨a, b, hab⟩
    · exact ⟨[], b, by simpa using hb⟩
    · exact ⟨a, b, hab⟩

/-- C7 witness: with the UTF-8 encoding and an empty directory, 4
errors then one success leave the loop alive with the counter reset, 5
straight errors kill it, and the fatal run is located in that stream. -/
theorem listen_error_threshold_witness :
    runListen utf8Wire (0, ([] : Dir Nat))
        (List.replicate 4 NetEvent.err ++ NetEvent.recv [] 0 :: [])
      = some (0, [])
    ∧ runListen utf8Wire (0, ([] : Dir Nat))
        (List.replicate 5 NetEvent.err ++ []) = none
    ∧ ∃ a b, (List.replicate 5 (NetEvent.err (α := Nat)))
        = a ++ List.replicate 5 NetEvent.err ++ b := by
  have h := listen_error_threshold (α := Nat) utf8Wire
  refine ⟨?_, h.2.1 0 [] [], ?_⟩
  · rw [h.1 [] [] 0 []]
    rfl
  · exact h.2.2 (List.replicate 5 NetEvent.err) []
      (by simpa using h.2.1 0 [] [])

/-- C8: within one receive-loop iteration the directory changes only
for a successfully decoded packet whose command class
(`command & 0xff`) is `BR_ENTRY`, `IPMSG_ANSENTRY` or `BR_EXIT`: on
decode failure the directory is untouched, a decoded packet of any
other class leaves it untouched, and a received datagram never
terminates the loop (decode failure is never fatal). -/
theorem listen_directory_frame {α : Type} (E : WireEncoding) :
    (∀ (d : Dir α) (data : List Nat) (addr : α),
      IpMsgPacket.decode_with_config E data = none →
      processDatagram E d data addr = d)
    ∧ (∀ (d : Dir α) (data : List Nat) (addr : α) (p : IpMsgPacket),
      IpMsgPacket.decode_with_config E data = some p →
      p.command &&& 0xff ≠ commands.BR_ENTRY →
      p.command &&& 0xff ≠ commands.IPMSG_ANSENTRY →
      p.command &&& 0xff ≠ commands.BR_EXIT →
      processDatagram E d data addr = d)
    ∧ (∀ (st : Nat × Dir α) (data : List Nat) (addr : α),
      listenStep E st (NetEvent.recv data addr) ≠ none) := by
  refine ⟨?_, ?_, ?_⟩
  · intro d data addr h
    unfold processDatagram
    rw [h]
  · intro d data addr p h h₁ h₂ h₃
    unfold processDatagram
    rw [h]
    exact handle_packet_other d addr h₁ h₂ h₃
  · intro st data addr
    rw [listenStep_recv]
    simp

/-- C8 witness: an undecodable datagram (no colons) and a decoded `MSG`
(0x20) datagram both leave a concrete one-entry directory unchanged,
and neither terminates the loop. -/
theorem listen_directory_frame_witness :
    processDatagram utf8Wire ([("bob@k".toList, (9 : Nat))]) [0x78, 0x78] 0
      = [("bob@k".toList, (9 : Nat))]
    ∧ processDatagram utf8Wire ([("bob@k".toList, (9 : Nat))])
        (utf8Encode "1:7:u:h:32:m".toList) 0
      = [("bob@k".toList, (9 : Nat))]
    ∧ listenStep utf8Wire (0, ([("bob@k".toList, (9 : Nat))]))
        (NetEvent.recv [0x78, 0x78] 0) ≠ none := by
  have h := listen_directory_frame (α := Nat) utf8Wire
  refine ⟨h.1 _ _ 0 (by decide), ?_, h.2.2 _ _ 0⟩
  exact h.2.1 _ _ 0
    { version := "1".toList, packet_no := 7, sender_user := "u".toList,
      sender_host := "h".toList, command := 32, sender_name := "m".toList,
      group_name := [], additional_msg := [] }
    (by decide) (by decide) (by decide) (by decide)

/-- C10: each loop iteration reads the datagram into the fixed
1024-byte buffer, so exactly the first 1024 bytes reach the decoder: a
datagram of at most 1024 bytes is passed whole, and a longer one is
truncated to 1024 bytes and so differs from what was sent. -/
theorem listen_recv_truncation {α : Type} (E : WireEncoding) :
    (∀ (st : Nat × Dir α) (data : List Nat) (addr : α),
      listenStep E st (NetEvent.recv data addr)
        = some (0, processDatagram E st.2 (data.take 1024) addr))
    ∧ (∀ data : List Nat, data.length ≤ 1024 → data.take 1024 = data)
    ∧ (∀ data : List Nat, 1024 < data.length →
      (data.take 1024).length = 1024 ∧ data.take 1024 ≠ data) := by
  refine ⟨?_, ?_, ?_⟩
  · intro st data addr
    rfl
  · intro data h
    exact List.take_of_length_le h
  · intro data h
    constructor
    · rw [List.length_take]
      omega
    · intro he
      have := congrArg List.length he
      rw [List.length_take] at this
      omega

/-- C10 witness: a 1025-byte datagram is truncated to its first 1024
bytes by the receive step, losing its tail. -/
theorem listen_recv_truncation_witness :
    ((List.replicate 1025 (65 : Nat)).take 1024).length = 1024
    ∧ (List.replicate 1025 (65 : Nat)).take 1024 ≠ List.replicate 1025 (65 : Nat) := by
  exact (listen_recv_truncation (α := Nat) utf8Wire).2.2
    (List.replicate 1025 65) (by rw [List.length_replicate]; omega)

/-! ### Helper lemmas: `pieceD` and decoded fields -/

theorem pieceD_append (l l2 : List (List Char)) (i : Nat) (h : i < l.length) :
    IpMsgPacket.pieceD (l ++ l2) i = IpMsgPacket.pieceD l i := by
  unfold IpMsgPacket.pieceD
  induction l generalizing i with
  | nil => simp at h
  | cons x xs ih =>
    cases i with
    | zero => rfl
    | succ i =>
      simp only [List.cons_append, List.getD_cons_succ]
      exact ih i (by simpa using h)

theorem pieceD_eq_nil_or_mem (l : List (List Char)) (i : Nat) :
    IpMsgPacket.pieceD l i = [] ∨ IpMsgPacket.pieceD l i ∈ l := by
  unfold IpMsgPacket.pieceD
  induction l generalizing i with
  | nil => left; simp
  | cons x xs ih =>
    cases i with
    | zero =>
      right
      rw [List.getD_cons_zero]
      exact List.mem_cons_self x xs
    | succ i =>
      rcases ih i with h | h
      · left
        rw [List.getD_cons_succ]
        exact h
      · right
        rw [List.getD_cons_succ]
        exact List.mem_cons_of_mem x h

theorem colon_not_in_nul_piece (s : List Char) (i : Nat) :
    ':' ∉ IpMsgPacket.pieceD
        (splitOnChar nulChar (IpMsgPacket.pieceD (splitOnChar ':' s) 5)) i := by
  intro hc
  rcases pieceD_eq_nil_or_mem
      (splitOnChar nulChar (IpMsgPacket.pieceD (splitOnChar ':' s) 5)) i with h | h
  · rw [h] at hc
    exact List.not_mem_nil ':' hc
  · have hmem : ':' ∈ IpMsgPacket.pieceD (splitOnChar ':' s) 5 :=
      mem_of_mem_splitOnChar h hc
    rcases pieceD_eq_nil_or_mem (splitOnChar ':' s) 5 with h5 | h5
    · rw [h5] at hmem
      exact List.not_mem_nil ':' hmem
    · exact sep_not_mem_of_mem_splitOnChar h5 hmem

theorem parse_packet_str_some_fields {s : List Char} {p : IpMsgPacket}
    (h : IpMsgPacket.parse_packet_str s = some p) :
    p.sender_name
      = IpMsgPacket.pieceD (splitOnChar nulChar (IpMsgPacket.pieceD (splitOnChar ':' s) 5)) 0
    ∧ p.group_name
      = IpMsgPacket.pieceD (splitOnChar nulChar (IpMsgPacket.pieceD (splitOnChar ':' s) 5)) 1
    ∧ p.additional_msg
      = IpMsgPacket.pieceD (splitOnChar nulChar (IpMsgPacket.pieceD (splitOnChar ':' s) 5)) 2 := by
  unfold IpMsgPacket.parse_packet_str at h
  split at h
  · exact absurd h (by simp)
  · rcases hno : parseU32 (IpMsgPacket.pieceD (splitOnChar ':' s) 1) with _ | no
    all_goals rcases hcm : parseU32 (IpMsgPacket.pieceD (splitOnChar ':' s) 4) with _ | cm
    all_goals rw [hno, hcm] at h
    · exact absurd h (by simp)
    · exact absurd h (by simp)
    · exact absurd h (by simp)
    · obtain rfl := Option.some.inj h
      exact ⟨rfl, rfl, rfl⟩

theorem decode_fallback_some_fields {s : List Char} {p : IpMsgPacket}
    (h : IpMsgPacket.decode_fallback s = some p) :
    p.sender_name
      = IpMsgPacket.pieceD (splitOnChar nulChar (IpMsgPacket.pieceD (splitOnChar ':' s) 5)) 0
    ∧ p.group_name = p.sender_name ∧ p.additional_msg = p.sender_name := by
  unfold IpMsgPacket.decode_fallback at h
  split at h
  · exact absurd h (by simp)
  · obtain rfl := Option.some.inj h
    exact ⟨rfl, rfl, rfl⟩

/-! ### Claim theorems: the codec -/

/-- C3 (amended): in the primary decode path the tail (sixth part) is
split on NUL into up to three ordered pieces assigned respectively to
senderName, groupName and additionalMsg, each missing piece defaulting
to the empty string; in the fallback decode path all three of those
fields are set to the portion of the tail before its first NUL. -/
theorem tail_nul_split :
    (∀ (s : List Char) (p : IpMsgPacket),
      IpMsgPacket.parse_packet_str s = some p →
      p.sender_name
        = IpMsgPacket.pieceD (splitOnChar nulChar (IpMsgPacket.pieceD (splitOnChar ':' s) 5)) 0
      ∧ p.group_name
        = IpMsgPacket.pieceD (splitOnChar nulChar (IpMsgPacket.pieceD (splitOnChar ':' s) 5)) 1
      ∧ p.additional_msg
        = IpMsgPacket.pieceD (splitOnChar nulChar (IpMsgPacket.pieceD (splitOnChar ':' s) 5)) 2)
    ∧ (∀ (s : List Char) (p : IpMsgPacket),
      IpMsgPacket.decode_fallback s = some p →
      p.sender_name
        = IpMsgPacket.pieceD (splitOnChar nulChar (IpMsgPacket.pieceD (splitOnChar ':' s) 5)) 0
      ∧ p.group_name = p.sender_name ∧ p.additional_msg = p.sender_name) :=
  ⟨fun _ _ h => parse_packet_str_some_fields h,
   fun _ _ h => decode_fallback_some_fields h⟩

/-- C3 counterexample: on a six-part input whose tail is `x NUL y NUL z`
the fallback path sets groupName (and additionalMsg) to the first piece
`x`, not to the second piece `y` as the claim states. -/
theorem tail_nul_split_counterexample :
    splitOnChar nulChar (IpMsgPacket.pieceD (splitOnChar ':' fallbackTailInput) 5)
      = ["x".toList, "y".toList, "z".toList]
    ∧ (IpMsgPacket.decode_fallback fallbackTailInput).map IpMsgPacket.group_name
      = some "x".toList
    ∧ (IpMsgPacket.decode_fallback fallbackTailInput).map IpMsgPacket.additional_msg
      = some "x".toList
    ∧ "x".toList ≠ "y".toList := by
  decide

/-- C3 witness: the primary path splits the same tail into the three
ordered pieces, and the fallback path maps all three fields to the
first piece. -/
theorem tail_nul_split_witness :
    (∃ p, IpMsgPacket.parse_packet_str fallbackTailInput = some p
      ∧ p.sender_name = "x".toList ∧ p.group_name = "y".toList
      ∧ p.additional_msg = "z".toList)
    ∧ ∃ q, IpMsgPacket.decode_fallback fallbackTailInput = some q
      ∧ q.sender_name = "x".toList ∧ q.group_name = q.sender_name
      ∧ q.additional_msg = q.sender_name := by
  constructor
  · rcases hp : IpMsgPacket.parse_packet_str fallbackTailInput with _ | p
    · exact absurd hp (by decide)
    · obtain ⟨h1, h2, h3⟩ := tail_nul_split.1 fallbackTailInput p hp
      refine ⟨p, rfl, ?_, ?_, ?_⟩
      · rw [h1]; decide
      · rw [h2]; decide
      · rw [h3]; decide
  · rcases hq : IpMsgPacket.decode_fallback fallbackTailInput with _ | q
    · exact absurd hq (by decide)
    · obtain ⟨h1, h2, h3⟩ := tail_nul_split.2 fallbackTailInput q hq
      exact ⟨q, rfl, by rw [h1]; decide, h2, h3⟩

/-- C4: the fallback decoder returns a packet on every input with at
least 6 colon-separated parts — numeric fields that fail to parse as
`u32` degrade to 0 instead of aborting — and fails exactly when there
are fewer than 6 parts. -/
theorem decode_fallback_structural :
    ∀ s : List Char,
      (6 ≤ (splitOnChar ':' s).length →
        ∃ p, IpMsgPacket.decode_fallback s = some p
          ∧ (parseU32 (IpMsgPacket.pieceD (splitOnChar ':' s) 1) = none →
              p.packet_no = 0)
          ∧ (parseU32 (IpMsgPacket.pieceD (splitOnChar ':' s) 4) = none →
              p.command = 0))
      ∧ ((splitOnChar ':' s).length < 6 → IpMsgPacket.decode_fallback s = none) := by
  intro s
  constructor
  · intro h6
    unfold IpMsgPacket.decode_fallback
    rw [if_neg (by omega)]
    refine ⟨_, rfl, ?_, ?_⟩
    · intro h
      show (parseU32 (IpMsgPacket.pieceD (splitOnChar ':' s) 1)).getD 0 = 0
      rw [h]
      rfl
    · intro h
      show (parseU32 (IpMsgPacket.pieceD (splitOnChar ':' s) 4)).getD 0 = 0
      rw [h]
      rfl
  · intro h6
    unfold IpMsgPacket.decode_fallback
    rw [if_pos h6]

/-- C4 witness: a six-part input whose packetNo and command slots are
not numeric decodes to a packet with both numeric fields 0. -/
theorem decode_fallback_structural_witness :
    ∃ p, IpMsgPacket.decode_fallback badNumbersInput = some p
      ∧ p.packet_no = 0 ∧ p.command = 0 := by
  obtain ⟨p, h1, h2, h3⟩ :=
    (decode_fallback_structural badNumbersInput).1 (by decide)
  exact ⟨p, h1, h2 (by decide), h3 (by decide)⟩

/-- C9: both decode paths use only the first six colon-separated parts
(everything after the sixth colon is discarded: appending `:extra` to
an input that already has six parts changes neither path's result), and
a decoded additionalMsg never contains a colon, in either path. -/
theorem decode_first_six_parts :
    (∀ (s t : List Char), 6 ≤ (splitOnChar ':' s).length →
      IpMsgPacket.parse_packet_str (s ++ ':' :: t) = IpMsgPacket.parse_packet_str s
      ∧ IpMsgPacket.decode_fallback (s ++ ':' :: t) = IpMsgPacket.decode_fallback s)
    ∧ (∀ (s : List Char) (p : IpMsgPacket),
      IpMsgPacket.parse_packet_str s = some p → ':' ∉ p.additional_msg)
    ∧ (∀ (s : List Char) (p : IpMsgPacket),
      IpMsgPacket.decode_fallback s = some p → ':' ∉ p.additional_msg) := by
  refine ⟨?_, ?_, ?_⟩
  · intro s t h6
    have hsp := splitOnChar_append ':' s t
    have hlen : ¬ (splitOnChar ':' s ++ splitOnChar ':' t).length < 6 := by
      rw [List.length_append]
      omega
    constructor
    · unfold IpMsgPacket.parse_packet_str
      rw [hsp, if_neg hlen, if_neg (by omega),
        pieceD_append _ _ 0 (by omega), pieceD_append _ _ 1 (by omega),
        pieceD_append _ _ 2 (by omega), pieceD_append _ _ 3 (by omega),
        pieceD_append _ _ 4 (by omega), pieceD_append _ _ 5 (by omega)]
    · unfold IpMsgPacket.decode_fallback
      rw [hsp, if_neg hlen, if_neg (by omega),
        pieceD_append _ _ 0 (by omega), pieceD_append _ _ 1 (by omega),
        pieceD_append _ _ 2 (by omega), pieceD_append _ _ 3 (by omega),
        pieceD_append _ _ 4 (by omega), pieceD_append _ _ 5 (by omega)]
  · intro s p h
    rw [(parse_packet_str_some_fields h).2.2]
    exact colon_not_in_nul_piece s 2
  · intro s p h
    obtain ⟨h1, _, h3⟩ := decode_fallback_some_fields h
    rw [h3, h1]
    exact colon_not_in_nul_piece s 0

/-- C9 witness: appending `:x:y` to a six-part message leaves both
decoders' results unchanged (the body `m:x:y` is truncated at its first
colon), and the decoded additionalMsg of a concrete parse contains no
colon. -/
theorem decode_first_six_parts_witness :
    (IpMsgPacket.parse_packet_str ("a:1:u:h:2:m".toList ++ ':' :: "x:y".toList)
      = IpMsgPacket.parse_packet_str "a:1:u:h:2:m".toList)
    ∧ (IpMsgPacket.decode_fallback ("a:1:u:h:2:m".toList ++ ':' :: "x:y".toList)
      = IpMsgPacket.decode_fallback "a:1:u:h:2:m".toList)
    ∧ ':' ∉ IpMsgPacket.additional_msg
        { version := "a".toList, packet_no := 1, sender_user := "u".toList,
          sender_host := "h".toList, command := 2, sender_name := "m".toList,
          group_name := [], additional_msg := [] } := by
  obtain ⟨h1, h2⟩ := decode_first_six_parts.1 "a:1:u:h:2:m".toList "x:y".toList (by decide)
  refine ⟨h1, h2, ?_⟩
  exact decode_first_six_parts.2.1 "a:1:u:h:2:m".toList _ (by decide)

/-- C2 (amended): `broadcast` transmits the UTF-8 bytes of the plain
`encode` string — the sender-name slot carries the packet's sender_name
and the configured text encoding is not consulted — to the hardcoded
destination `255.255.255.255:2425`; `send_to` transmits the same bytes
to the given address. The payload coincides with
`encode_with_config` under the UTF-8 configuration exactly when the
packet's sender_name is the literal token `aaMsg` and its group is
empty. -/
theorem broadcast_plain_encode {α : Type} :
    ∀ (p : IpMsgPacket) (addr : α),
      broadcastDatagram p = (utf8Encode p.encode, broadcastDest)
      ∧ broadcastDest = "255.255.255.255:2425".toList
      ∧ sendToDatagram p addr = (utf8Encode p.encode, addr)
      ∧ (p.sender_name = "aaMsg".toList → p.group_name = [] →
          (broadcastDatagram p).1 = IpMsgPacket.encode_with_config utf8Wire p) := by
  intro p addr
  refine ⟨rfl, by decide, rfl, ?_⟩
  intro hname hgroup
  have henc : p.encode = IpMsgPacket.encodeWithConfigStr p := by
    unfold IpMsgPacket.encode IpMsgPacket.encodeWithConfigStr
    rw [hgroup, hname]
    simp
  show utf8Encode p.encode = IpMsgPacket.encode_with_config utf8Wire p
  rw [henc]
  rfl

/-- C2 counterexample: for the example packet (sender_name `Alice`),
the bytes actually broadcast differ from the `encode_with_config`
output under the UTF-8 configuration, because the transmitted form
carries `Alice`, not the fixed token, in the third slot. -/
theorem broadcast_plain_encode_counterexample :
    (broadcastDatagram examplePacket).1
      ≠ IpMsgPacket.encode_with_config utf8Wire examplePacket := by
  decide

/-- C2 witness: a packet whose sender_name is the literal token and
whose group is empty broadcasts exactly the `encode_with_config`
bytes. -/
theorem broadcast_plain_encode_witness :
    (broadcastDatagram
        { version := "1".toList, packet_no := 5, sender_user := "u".toList,
          sender_host := "h".toList, command := 32,
          sender_name := "aaMsg".toList, group_name := [],
          additional_msg := "hi".toList }).1
      = IpMsgPacket.encode_with_config utf8Wire
        { version := "1".toList, packet_no := 5, sender_user := "u".toList,
          sender_host := "h".toList, command := 32,
          sender_name := "aaMsg".toList, group_name := [],
          additional_msg := "hi".toList }
    ∧ broadcastDest = "255.255.255.255:2425".toList := by
  have h := broadcast_plain_encode (α := Nat)
    { version := "1".toList, packet_no := 5, sender_user := "u".toList,
      sender_host := "h".toList, command := 32,
      sender_name := "aaMsg".toList, group_name := [],
      additional_msg := "hi".toList } 0
  exact ⟨h.2.2.2 rfl rfl, h.2.1⟩

/-- Evaluation of the primary parser on a string whose colon-split is
exactly six known pieces with parsable numeric slots and a NUL-free
tail. -/
theorem parse_packet_str_of_split {s : List Char} {v0 no aa host cmd a0 : List Char}
    (hs : splitOnChar ':' s = [v0, no, aa, host, cmd, a0])
    {vno vcmd : Nat} (hno : parseU32 no = some vno)
    (hcmd : parseU32 cmd = some vcmd) (ha : nulChar ∉ a0) :
    IpMsgPacket.parse_packet_str s
      = some { version := v0, packet_no := vno, sender_user := aa,
               sender_host := host, command := vcmd, sender_name := a0,
               group_name := [], additional_msg := [] } := by
  unfold IpMsgPacket.parse_packet_str
  rw [hs, if_neg (by simp),
    show IpMsgPacket.pieceD [v0, no, aa, host, cmd, a0] 1 = no from rfl,
    show IpMsgPacket.pieceD [v0, no, aa, host, cmd, a0] 4 = cmd from rfl,
    hno, hcmd,
    show IpMsgPacket.pieceD [v0, no, aa, host, cmd, a0] 5 = a0 from rfl,
    splitOnChar_no_sep ha]
  rfl

/-- C1 (amended): for a packet with empty groupName whose fields are
clean (no colon, no NUL) and whose encoded bytes decode back without
error under the configured encoding, decoding the bytes produced by
`encode_with_config` succeeds and preserves command, packetNo and
senderHost exactly; but the decoded additionalMsg is always the empty
string (it equals the original only when that was empty) — the
transmitted body resurfaces, right-trimmed, in senderName, because the
parser assigns the tail's first NUL-piece to senderName. -/
theorem roundtrip_clean_amended (E : WireEncoding) (p : IpMsgPacket)
    (hno : p.packet_no < 2 ^ 32) (hcmd : p.command < 2 ^ 32)
    (hgroup : p.group_name = [])
    (hv : ':' ∉ p.version) (_hvn : nulChar ∉ p.version)
    (hh : ':' ∉ p.sender_host) (_hhn : nulChar ∉ p.sender_host)
    (ha : ':' ∉ p.additional_msg) (han : nulChar ∉ p.additional_msg)
    (hE : E.decode (E.encode (IpMsgPacket.encodeWithConfigStr p))
        = (IpMsgPacket.encodeWithConfigStr p, false)) :
    IpMsgPacket.decode_with_config E (IpMsgPacket.encode_with_config E p)
      = some { version := p.version.dropWhile rustIsWhitespace
               packet_no := p.packet_no
               sender_user := "aaMsg".toList
               sender_host := p.sender_host
               command := p.command
               sender_name := rdropWhileChar rustIsWhitespace p.additional_msg
               group_name := []
               additional_msg := [] } := by
  have hv0 : ':' ∉ p.version.dropWhile rustIsWhitespace :=
    fun hc => hv (mem_of_mem_dropWhile hc)
  have ha0 : ':' ∉ rdropWhileChar rustIsWhitespace p.additional_msg :=
    fun hc => ha (mem_of_mem_rdropWhileChar hc)
  have han0 : nulChar ∉ rdropWhileChar rustIsWhitespace p.additional_msg :=
    fun hc => han (mem_of_mem_rdropWhileChar hc)
  have hnod : ':' ∉ natToChars p.packet_no :=
    fun hc => (isAsciiDigit_facts (mem_natToChars_isAsciiDigit hc)).1 rfl
  have hcmdd : ':' ∉ natToChars p.command :=
    fun hc => (isAsciiDigit_facts (mem_natToChars_isAsciiDigit hc)).1 rfl
  have hshape : IpMsgPacket.encodeWithConfigStr p
      = p.version ++ ':' :: (natToChars p.packet_no ++ ':' :: "aaMsg".toList
          ++ ':' :: p.sender_host ++ ':' :: natToChars p.command)
        ++ ':' :: p.additional_msg := by
    unfold IpMsgPacket.encodeWithConfigStr
    rw [hgroup]
    simp
  have hsplit : splitOnChar ':' (trimChars (IpMsgPacket.encodeWithConfigStr p))
      = [p.version.dropWhile rustIsWhitespace, natToChars p.packet_no,
         "aaMsg".toList, p.sender_host, natToChars p.command,
         rdropWhileChar rustIsWhitespace p.additional_msg] := by
    rw [hshape, trimChars_of_shape (by decide)]
    rw [show p.version.dropWhile rustIsWhitespace
        ++ ':' :: (natToChars p.packet_no ++ ':' :: "aaMsg".toList
            ++ ':' :: p.sender_host ++ ':' :: natToChars p.command)
        ++ ':' :: rdropWhileChar rustIsWhitespace p.additional_msg
      = p.version.dropWhile rustIsWhitespace
        ++ ':' :: (natToChars p.packet_no ++ ':' :: ("aaMsg".toList
            ++ ':' :: (p.sender_host ++ ':' :: (natToChars p.command
            ++ ':' :: rdropWhileChar rustIsWhitespace p.additional_msg))))
      from by simp]
    rw [splitOnChar_cons_of_no_sep hv0, splitOnChar_cons_of_no_sep hnod,
      splitOnChar_cons_of_no_sep (by decide), splitOnChar_cons_of_no_sep hh,
      splitOnChar_cons_of_no_sep hcmdd, splitOnChar_no_sep ha0]
  unfold IpMsgPacket.decode_with_config IpMsgPacket.encode_with_config
  rw [hE]
  show IpMsgPacket.parse_packet_str (trimChars (IpMsgPacket.encodeWithConfigStr p)) = _
  exact parse_packet_str_of_split hsplit (parseU32_natToChars hno)
    (parseU32_natToChars hcmd) han0

/-- C1 counterexample: for the clean example packet with body `Hello`,
decoding its own encoding yields an empty additionalMsg — it does not
equal the original body, which instead lands in senderName. -/
theorem roundtrip_clean_counterexample :
    (IpMsgPacket.decode_with_config utf8Wire
        (IpMsgPacket.encode_with_config utf8Wire examplePacket)).map
        IpMsgPacket.additional_msg
      = some []
    ∧ examplePacket.additional_msg ≠ []
    ∧ (IpMsgPacket.decode_with_config utf8Wire
        (IpMsgPacket.encode_with_config utf8Wire examplePacket)).map
        IpMsgPacket.sender_name
      = some examplePacket.additional_msg := by
  decide

/-- C1 witness: the amended round-trip instantiated at the example
packet under the concrete UTF-8 encoding. -/
theorem roundtrip_clean_amended_witness :
    IpMsgPacket.decode_with_config utf8Wire
        (IpMsgPacket.encode_with_config utf8Wire examplePacket)
      = some { version := examplePacket.version.dropWhile rustIsWhitespace
               packet_no := examplePacket.packet_no
               sender_user := "aaMsg".toList
               sender_host := examplePacket.sender_host
               command := examplePacket.command
               sender_name :=
                 rdropWhileChar rustIsWhitespace examplePacket.additional_msg
               group_name := []
               additional_msg := [] } :=
  roundtrip_clean_amended utf8Wire examplePacket (by decide) (by decide) rfl
    (by decide) (by decide) (by decide) (by decide) (by decide) (by decide)
    (by decide)

end LanMsg
